import Mathlib

/-!
# Verification of the `clip` clipboard history manager (`src/main.go`)

This file shallowly embeds the core of the Go program: the history store
(`application` with its `Items` slice and `index` map), the index resolver
`resolveIdx`, the operation executor `handle`, and the command interpreter
`parse`.  Claims about the spec are then settled against these definitions.

Modelling conventions:
  * The Go `map[string]int` field `index` is modelled as an association list
    (`IndexMap`) with Go map semantics: `mapInsert` replaces the binding of an
    existing key, `mapLookup` returns the unique binding if present.
  * The SHA-1 + base64 content digest is abstracted as a parameter
    `H : String → String`; every operation is parametric in `H`.  The Go code
    only ever compares digests for equality, so all behaviour is captured by
    the values of `H`; claims that depend on two digests being distinct take
    that as an explicit hypothesis (true of SHA-1 on the concrete inputs).
  * `strings.TrimSpace` is modelled by `goTrimSpace` over the Unicode
    white-space code points Go recognises, and `strings.ReplaceAll` by
    `goReplaceAll` (leftmost, non-overlapping).
  * Fallible operations return `Option`/`Except`; the `panic` in the bounded
    list branch is modelled by the distinguished result `ExecResult.panicked`.
-/

/-- One clipboard entry: `Item` from `main.go` (`Data`, `Hash` fields). -/
structure Item where
  data : String
  hash : String
deriving DecidableEq

/-- The Go `map[string]int` dedup index, as an association list. -/
abbrev IndexMap := List (String × Nat)

/-- Lookup in the Go map: the binding of `k`, if any. -/
def mapLookup : IndexMap → String → Option Nat
  | [], _ => none
  | (k', v') :: rest, k => if k' = k then some v' else mapLookup rest k

/-- Go map assignment `m[k] = v`: replaces the binding of `k` if present. -/
def mapInsert : IndexMap → String → Nat → IndexMap
  | [], k, v => [(k, v)]
  | (k', v') :: rest, k, v =>
      if k' = k then (k, v) :: rest else (k', v') :: mapInsert rest k v

/-- The in-memory application state: the `Items` slice and the dedup `index`
map of `application` in `main.go` (the `filePath` field is persistence glue
and out of scope). -/
structure App where
  items : List Item
  index : IndexMap
deriving DecidableEq

/-- The white-space test used by Go's `strings.TrimSpace`
(`unicode.IsSpace`): the Unicode White_Space code points. -/
def goIsSpace (c : Char) : Bool :=
  let n := c.toNat
  n = 0x20 || (0x9 <= n && n <= 0xd) || n = 0x85 || n = 0xa0 ||
  n = 0x1680 || (0x2000 <= n && n <= 0x200a) || n = 0x2028 || n = 0x2029 ||
  n = 0x202f || n = 0x205f || n = 0x3000

/-- Go `strings.TrimSpace`: drop white space from both ends. -/
def goTrimSpace (s : String) : String :=
  ⟨((s.data.dropWhile goIsSpace).reverse.dropWhile goIsSpace).reverse⟩

/-- Core of `goReplaceAll`: leftmost non-overlapping replacement of the
non-empty pattern `pat` by `rep` in a character list, as Go's
`strings.ReplaceAll` performs.  The fuel argument (instantiated with the
length of the list, an upper bound on the number of steps) only makes the
recursion structural; it never runs out. -/
def replaceAux (pat rep : List Char) : Nat → List Char → List Char
  | 0, l => l
  | fuel + 1, l =>
      match l with
      | [] => []
      | c :: cs =>
          if pat.isPrefixOf (c :: cs) then
            rep ++ replaceAux pat rep fuel (List.drop (pat.length - 1) cs)
          else
            c :: replaceAux pat rep fuel cs

/-- Go `strings.ReplaceAll old → new` (for a non-empty pattern; the program
only ever uses the two-character pattern `\n` and the newline pattern). -/
def goReplaceAll (s pat rep : String) : String :=
  if pat.data = [] then s else ⟨replaceAux pat.data rep.data s.data.length s.data⟩

/-- `main.go` unescapes piped/list text by replacing the literal two-character
sequence backslash-n with a real newline. -/
def goUnescape (s : String) : String := goReplaceAll s "\\n" "\n"

/-- `application.hash`: digest of the trimmed text.  `H` abstracts the
SHA-1 + raw-URL-base64 digest. -/
def hashFn (H : String → String) (data : String) : String :=
  H (goTrimSpace data)

/-- The loop body of `application.Reindex`: starting from map `m`, insert each
item's hash at its position, counting from `i`. -/
def reindexAux (m : IndexMap) : List Item → Nat → IndexMap
  | [], _ => m
  | it :: rest, i => reindexAux (mapInsert m it.hash i) rest (i + 1)

/-- `application.Reindex`: rebuild the index from scratch from the items. -/
def ReindexMap (items : List Item) : IndexMap :=
  reindexAux [] items 0

/-- `application.Reindex` as a state transformer. -/
def App.Reindex (app : App) : App :=
  { app with index := ReindexMap app.items }

/-- `application.Remove(idx)`: silently ignores out-of-bounds positions;
clears everything when the sole entry is removed; otherwise erases the entry
(head trim / tail trim / middle splice exactly as in the Go code) and
rebuilds the index (the deferred `Reindex`). -/
def App.Remove (app : App) (idx : Int) : App :=
  if idx < 0 ∨ (app.items.length : Int) ≤ idx then app
  else if idx = 0 ∧ app.items.length = 1 then ⟨[], []⟩
  else
    let items' :=
      if idx = 0 then app.items.tail
      else if idx = (app.items.length : Int) - 1 then app.items.dropLast
      else app.items.take idx.toNat ++ app.items.drop (idx.toNat + 1)
    ⟨items', ReindexMap items'⟩

/-- `application.Add(data)`: hash the (trimmed) text; if that hash is already
the newest entry, do nothing; if it exists elsewhere, remove it; then append a
new `Item` holding the original `data` and the hash, and record its position
in the index. -/
def App.Add (app : App) (H : String → String) (data : String) : App :=
  let h := hashFn H data
  match mapLookup app.index h with
  | some idx =>
      if idx + 1 = app.items.length then app
      else
        let app' := app.Remove (idx : Int)
        ⟨app'.items ++ [⟨data, h⟩], mapInsert app'.index h app'.items.length⟩
  | none =>
      ⟨app.items ++ [⟨data, h⟩], mapInsert app.index h app.items.length⟩

/-- `application.Get(index)`: the item at an absolute position, if in bounds. -/
def App.Get (app : App) (index : Int) : Option Item :=
  if index < 0 ∨ (app.items.length : Int) ≤ index then none
  else app.items[index.toNat]?

/-- `application.Clear`: empty items, fresh index. -/
def App.Clear (_ : App) : App := ⟨[], []⟩

/-- The empty store (fresh start). -/
def emptyApp : App := ⟨[], []⟩

/-- `resolveIdx(idx, len)`: map a user-facing relative index to an absolute
position; `none` models the out-of-bounds error return. -/
def resolveIdx (idx len : Int) : Option Int :=
  let i := if idx < 0 then idx * (-1) - 1 else len - idx - 1
  if i < 0 ∨ len ≤ i then none else some i

example : resolveIdx 0 5 = some 4 := by decide
example : resolveIdx (-1) 5 = some 0 := by decide
example : resolveIdx 2 5 = some 2 := by decide
example : resolveIdx (-3) 5 = some 2 := by decide
example : resolveIdx 5 5 = none := by decide
example : goTrimSpace "  x " = "x" := by decide
example : goUnescape "a\\nb" = "a\nb" := by decide
example : mapLookup (mapInsert [] "a" 3) "a" = some 3 := by decide

/-- The operation kinds (`Op` constants in `main.go`). -/
inductive Op where
  | help
  | version
  | add
  | paste
  | delete
  | deleteAll
  | list
deriving DecidableEq

/-- The `Flags` struct produced by the command interpreter.  Defaults are the
Go zero values. -/
structure Flags where
  op : Op := .help
  text : String := ""
  silent : Bool := false
  pasteIndex : Int := 0
  deleteIndices : List Int := []
  listArgs : Int × Int := (0, 0)
deriving DecidableEq

/-- How an executed operation terminates: normally, with one of the error
returns of `application.handle`, or by the `panic` in the bounded-list
branch. -/
inductive ExecResult where
  | ok
  | errNoText
  | errOutOfBounds
  | errItemNotFound (idx : Int)
  | panicked (msg : String)
deriving DecidableEq

/-- Result of `application.handle`: the state at exit, the text printed to
standard output (one string per `Out`/`Outln` call), and how it ended. -/
structure HandleOut where
  app : App
  out : List String
  res : ExecResult
deriving DecidableEq

/-- The build version string (`var version` default). -/
def versionStr : String := "v0.0.0"

/-- Insert into an ascending list (helper for `sortAsc`). -/
def insertAsc (x : Int) : List Int → List Int
  | [] => [x]
  | y :: ys => if x ≤ y then x :: y :: ys else y :: insertAsc x ys

/-- Ascending sort.  `slices.Sort` in Go produces the ascending-sorted
permutation of its input, which is unique, so any correct sort models it. -/
def sortAsc : List Int → List Int
  | [] => []
  | x :: xs => insertAsc x (sortAsc xs)

/-- `slices.Sort` followed by `slices.Reverse`: the descending-sorted
permutation, as built in the `OpDelete` branch of `handle`. -/
def sortDescInt (l : List Int) : List Int := (sortAsc l).reverse

/-- The index-sanitising loop of the `OpDelete` branch: resolve every
requested index against the current length, aborting on the first failure. -/
def resolveAll : List Int → Int → Option (List Int)
  | [], _ => some []
  | i :: rest, len =>
      match resolveIdx i len with
      | none => none
      | some r => (resolveAll rest len).map (r :: ·)

/-- `application.handle`: execute one resolved operation against the store.
Each branch mirrors the corresponding `case` of the Go `switch`; `pflag.Usage`
writes to standard error, so the help branch records no standard output. -/
def handle (H : String → String) (flags : Flags) (app : App) : HandleOut :=
  match flags.op with
  | .help => ⟨app, [], .ok⟩
  | .version => ⟨app, [versionStr], .ok⟩
  | .add =>
      if flags.text = "" then ⟨app, [], .errNoText⟩
      else
        ⟨app.Add H flags.text, if flags.silent then [] else [flags.text], .ok⟩
  | .paste =>
      if app.items.length = 0 then ⟨app, [], .ok⟩
      else
        match resolveIdx flags.pasteIndex (app.items.length : Int) with
        | none => ⟨app, [], .errOutOfBounds⟩
        | some idx =>
            match app.Get idx with
            | none => ⟨app, [], .errItemNotFound idx⟩
            | some item =>
                let app' :=
                  if idx ≠ (app.items.length : Int) - 1 then
                    (app.Remove idx).Add H item.data
                  else app
                ⟨app', [item.data], .ok⟩
  | .deleteAll => ⟨app.Clear, [], .ok⟩
  | .delete =>
      let indices :=
        if flags.deleteIndices.length = 0 then [0] else flags.deleteIndices
      match resolveAll indices (app.items.length : Int) with
      | none => ⟨app, [], .errOutOfBounds⟩
      | some resolved =>
          ⟨(sortDescInt resolved).foldl App.Remove app, [], .ok⟩
  | .list =>
      if app.items.length = 0 then ⟨app, [], .ok⟩
      else if flags.listArgs.1 = 0 ∧ flags.listArgs.2 = 0 then
        ⟨app, app.items.reverse.map (fun it => goReplaceAll it.data "\n" "\\n"),
          .ok⟩
      else ⟨app, [], .panicked "Not implemented yet"⟩

/-- The parsed command-line surface `application.parse` examines: which flags
were explicitly set (`flagset.Changed`), their values, the positional
arguments, and whether the silent flag was given.  The `Get*` accessors of
`pflag` cannot fail for flags that were registered, so they are plain
fields. -/
structure FlagSet where
  changedVersion : Bool := false
  versionVal : Bool := false
  changedDeleteAll : Bool := false
  deleteAllVal : Bool := false
  changedDelete : Bool := false
  deleteVals : List Int := []
  changedList : Bool := false
  listVals : List Int := []
  changedPaste : Bool := false
  pasteVal : Int := 0
  changedSilent : Bool := false
  args : List String := []
deriving DecidableEq

/-- The error returns of `application.parse`: `pflag.ErrHelp` and the
"piped input cannot be used when pasting an item by index" error. -/
inductive ParseErr where
  | help
  | pipedIndexConflict
deriving DecidableEq

/-- `getPipeInput`: the piped standard-input content, where `none` models a
terminal (no pipe).  Content that trims to nothing — also after unescaping
literal backslash-n sequences — is treated as no input. -/
def getPipeInput (stdinData : Option String) : String :=
  match stdinData with
  | none => ""
  | some data =>
      if goTrimSpace data = "" then ""
      else if goTrimSpace (goUnescape data) = "" then ""
      else data

/-- `application.parse`: the priority-ordered decision chain
version > delete-all > delete > list > paste > positional > pipe,
exactly as in `main.go`. -/
def parse (H : String → String) (app : App) (fs : FlagSet)
    (stdinData : Option String) : Except ParseErr Flags :=
  let base : Flags := {}
  let emptyArg0 :=
    if fs.args.length > 0 then
      if goTrimSpace (fs.args.headD "") = "" then true
      else goTrimSpace (goUnescape (fs.args.headD "")) = ""
    else true
  if fs.changedVersion then
    .ok (if fs.versionVal then { base with op := .version } else base)
  else if fs.changedDeleteAll then
    .ok (if fs.deleteAllVal then { base with op := .deleteAll } else base)
  else if fs.changedDelete then
    if fs.deleteVals.length = 0 ∨
        (fs.deleteVals.length = 1 ∧ fs.deleteVals.headD 0 = 0) then
      .ok { base with op := .delete }
    else
      .ok { base with op := .delete, deleteIndices := fs.deleteVals }
  else if fs.changedList then
    if fs.listVals.length = 0 then .ok { base with op := .list }
    else if fs.listVals.length = 1 then
      .ok { base with op := .list, listArgs := (fs.listVals.headD 0, 0) }
    else if fs.listVals.length = 2 then
      .ok { base with op := .list, listArgs := (fs.listVals.headD 0, (fs.listVals.drop 1).headD 0) }
    else .error .help
  else if fs.changedPaste then
    let flags := { base with op := .paste, pasteIndex := fs.pasteVal }
    let pipeInput := getPipeInput stdinData
    if pipeInput ≠ "" then
      let unescaped := goUnescape pipeInput
      let r1 := mapLookup app.index (hashFn H unescaped)
      let r2 :=
        if r1 = none ∧ pipeInput ≠ unescaped then
          mapLookup app.index (hashFn H pipeInput)
        else r1
      match r2 with
      | none => .ok flags
      | some idx =>
          if fs.pasteVal ≠ 0 then .error .pipedIndexConflict
          else .ok { flags with pasteIndex := (app.items.length : Int) - idx - 1 }
    else .ok flags
  else if fs.args.length = 1 ∧ ¬emptyArg0 then
    .ok { base with op := .add, text := fs.args.headD "", silent := fs.changedSilent }
  else if fs.args.length > 1 then .error .help
  else
    let pipeInput := getPipeInput stdinData
    if pipeInput ≠ "" then
      .ok { base with op := .add, text := pipeInput, silent := fs.changedSilent }
    else if emptyArg0 then .ok { base with op := .paste }
    else .error .help

/-- The history-store operations of claim C1. -/
inductive StoreOp where
  | add (s : String)
  | remove (i : Int)
  | clear
  | reindex
deriving DecidableEq

/-- Apply one store operation. -/
def applyOp (H : String → String) (app : App) : StoreOp → App
  | .add s => app.Add H s
  | .remove i => app.Remove i
  | .clear => app.Clear
  | .reindex => app.Reindex

/-- Apply a sequence of store operations, oldest first. -/
def applyOps (H : String → String) (ops : List StoreOp) (app : App) : App :=
  ops.foldl (applyOp H) app

/-- The dedup invariant stated by the spec: no two entries share a content
hash, and the index maps every entry's hash to its current position. -/
def DedupInv (app : App) : Prop :=
  (app.items.map Item.hash).Nodup ∧
  ∀ j (h : j < app.items.length),
    mapLookup app.index (app.items[j].hash) = some j

instance (app : App) : Decidable (DedupInv app) := by
  unfold DedupInv; infer_instance

/-- The full store invariant: the dedup invariant together with soundness of
every index binding (it points into the items at an entry with that hash).
The third conjunct is what makes the invariant inductive. -/
def InvP (app : App) : Prop :=
  DedupInv app ∧
  ∀ kv ∈ app.index, (app.items[kv.2]?).map Item.hash = some kv.1

instance (app : App) : Decidable (InvP app) := by
  unfold InvP; infer_instance

/-- The entries of `items` whose absolute position (counting from `i`) is not
in `P`, in order: the expected outcome of deleting the set `P` of absolute
positions. -/
def keepNotIn (P : List Nat) : List Item → Nat → List Item
  | [], _ => []
  | x :: xs, i =>
      if i ∈ P then keepNotIn P xs (i + 1)
      else x :: keepNotIn P xs (i + 1)

/-- Modelled from the spec: section 4.1 says `Remove(position)` "signals
NotFound if out of bounds"; the Go `Remove` has no error return at all, so
this spec-side variant is given for comparison with `App.Remove`. -/
def RemoveSpec (app : App) (idx : Int) : Except Unit App :=
  if idx < 0 ∨ (app.items.length : Int) ≤ idx then .error ()
  else .ok (app.Remove idx)

example : (emptyApp.Add (fun s => s) " x ").items = [⟨" x ", "x"⟩] := by decide
example :
    (handle (fun s => s) { op := .list, listArgs := (5, 10) }
      ⟨[⟨"a", "a"⟩], [("a", 0)]⟩).res = .panicked "Not implemented yet" := by
  decide

/-- Position of the first entry with hash `k`. -/
def hashIdx? (k : String) : List Item → Option Nat
  | [] => none
  | it :: rest => if it.hash = k then some 0 else (hashIdx? k rest).map (· + 1)

theorem mapLookup_insert (m : IndexMap) (k k' : String) (v : Nat) :
    mapLookup (mapInsert m k v) k' = if k = k' then some v else mapLookup m k' := by
  induction m with
  | nil => simp [mapInsert, mapLookup]
  | cons kv rest ih =>
      obtain ⟨k₀, v₀⟩ := kv
      by_cases h : k₀ = k <;> by_cases h' : k = k' <;>
        simp_all [mapInsert, mapLookup]

theorem mem_mapInsert {m : IndexMap} {k : String} {v : Nat} {kv : String × Nat}
    (h : kv ∈ mapInsert m k v) : kv = (k, v) ∨ kv ∈ m := by
  induction m with
  | nil => simpa [mapInsert] using h
  | cons kv₀ rest ih =>
      obtain ⟨k₀, v₀⟩ := kv₀
      simp only [mapInsert] at h
      split_ifs at h with hk
      · rcases List.mem_cons.mp h with h | h
        · exact Or.inl h
        · exact Or.inr (List.mem_cons_of_mem _ h)
      · rcases List.mem_cons.mp h with h | h
        · exact Or.inr (h ▸ List.mem_cons_self _ _)
        · rcases ih h with h' | h'
          · exact Or.inl h'
          · exact Or.inr (List.mem_cons_of_mem _ h')

theorem mapLookup_mem {m : IndexMap} {k : String} {v : Nat}
    (h : mapLookup m k = some v) : (k, v) ∈ m := by
  induction m with
  | nil => simp [mapLookup] at h
  | cons kv₀ rest ih =>
      obtain ⟨k₀, v₀⟩ := kv₀
      simp only [mapLookup] at h
      split_ifs at h with hk
      · subst hk
        injection h with h
        subst h
        exact List.mem_cons_self _ _
      · exact List.mem_cons_of_mem _ (ih h)

theorem hashIdx?_eq_none_of_not_mem {k : String} {items : List Item}
    (h : k ∉ items.map Item.hash) : hashIdx? k items = none := by
  induction items with
  | nil => rfl
  | cons it rest ih =>
      simp only [List.map_cons, List.mem_cons, not_or] at h
      have hne : ¬it.hash = k := fun he => h.1 he.symm
      simp [hashIdx?, hne, ih h.2]

theorem hashIdx?_getElem {items : List Item} (hnd : (items.map Item.hash).Nodup)
    {j : Nat} (hj : j < items.length) :
    hashIdx? (items[j].hash) items = some j := by
  induction items generalizing j with
  | nil => simp at hj
  | cons it rest ih =>
      simp only [List.map_cons, List.nodup_cons] at hnd
      cases j with
      | zero => simp [hashIdx?]
      | succ j =>
          have hj' : j < rest.length := by simpa using hj
          have hne : ¬it.hash = rest[j].hash := by
            intro he
            exact hnd.1 (he ▸ List.mem_map_of_mem Item.hash (rest.getElem_mem hj'))
          simp [hashIdx?, List.getElem_cons_succ, hne, ih hnd.2 hj']

theorem mapLookup_reindexAux {items : List Item}
    (hnd : (items.map Item.hash).Nodup) (m : IndexMap) (i : Nat) (k : String) :
    mapLookup (reindexAux m items i) k =
      match hashIdx? k items with
      | some j => some (i + j)
      | none => mapLookup m k := by
  induction items generalizing m i with
  | nil => simp [reindexAux, hashIdx?]
  | cons it rest ih =>
      simp only [List.map_cons, List.nodup_cons] at hnd
      by_cases hk : it.hash = k
      · subst hk
        have hnone : hashIdx? it.hash rest = none :=
          hashIdx?_eq_none_of_not_mem hnd.1
        simp only [reindexAux, hashIdx?, if_pos rfl]
        rw [ih hnd.2, hnone, mapLookup_insert]
        simp
      · simp only [reindexAux, hashIdx?, if_neg hk]
        rw [ih hnd.2]
        cases hfi : hashIdx? k rest with
        | none =>
            simp only [Option.map_none']
            rw [mapLookup_insert, if_neg hk]
        | some j =>
            simp only [Option.map_some']
            simp only [Option.some.injEq]
            omega

theorem mem_reindexAux {items : List Item} {m : IndexMap} {i : Nat}
    {kv : String × Nat} (h : kv ∈ reindexAux m items i) :
    kv ∈ m ∨ ∃ j, ∃ hj : j < items.length, kv.1 = items[j].hash ∧ kv.2 = i + j := by
  induction items generalizing m i with
  | nil => exact Or.inl h
  | cons it rest ih =>
      rcases ih h with h' | ⟨j, hj, h1, h2⟩
      · rcases mem_mapInsert h' with h'' | h''
        · refine Or.inr ⟨0, by simp, ?_, ?_⟩ <;> simp [h'']
        · exact Or.inl h''
      · refine Or.inr ⟨j + 1, by simpa using Nat.succ_lt_succ hj, ?_, ?_⟩
        · simpa using h1
        · omega

theorem invP_reindex {items : List Item} (hnd : (items.map Item.hash).Nodup) :
    InvP ⟨items, ReindexMap items⟩ := by
  refine ⟨⟨hnd, ?_⟩, ?_⟩
  · intro j hj
    show mapLookup (reindexAux [] items 0) items[j].hash = some j
    rw [mapLookup_reindexAux hnd, hashIdx?_getElem hnd hj]
    simp
  · intro kv hkv
    rcases mem_reindexAux hkv with h | ⟨j, hj, h1, h2⟩
    · simp at h
    · have : kv.2 = j := by omega
      rw [this, List.getElem?_eq_getElem hj]
      simp [h1]

theorem remove_eq {app : App} {idx : Int} (h0 : 0 ≤ idx)
    (h1 : idx < (app.items.length : Int)) :
    app.Remove idx =
      ⟨app.items.eraseIdx idx.toNat, ReindexMap (app.items.eraseIdx idx.toNat)⟩ := by
  have hguard : ¬(idx < 0 ∨ (app.items.length : Int) ≤ idx) := by omega
  rw [App.Remove, if_neg hguard]
  by_cases hc : idx = 0 ∧ app.items.length = 1
  · rw [if_pos hc]
    obtain ⟨x, hx⟩ := List.length_eq_one.mp hc.2
    have : idx.toNat = 0 := by omega
    rw [this, hx]
    rfl
  · rw [if_neg hc]
    by_cases hz : idx = 0
    · subst hz
      simp [List.eraseIdx_zero]
    · rw [if_neg hz]
      by_cases hl : idx = (app.items.length : Int) - 1
      · rw [if_pos hl]
        have htn : idx.toNat = app.items.length - 1 := by omega
        have h01 : 1 ≤ app.items.length := by omega
        rw [htn, List.eraseIdx_eq_take_drop_succ, List.dropLast_eq_take]
        have : app.items.length - 1 + 1 = app.items.length := by omega
        rw [this, List.drop_length, List.append_nil]
      · rw [if_neg hl, List.eraseIdx_eq_take_drop_succ]

theorem remove_invalid {app : App} {idx : Int}
    (h : idx < 0 ∨ (app.items.length : Int) ≤ idx) : app.Remove idx = app := by
  rw [App.Remove, if_pos h]

theorem invP_remove {app : App} (h : InvP app) (idx : Int) :
    InvP (app.Remove idx) := by
  by_cases hv : idx < 0 ∨ (app.items.length : Int) ≤ idx
  · rw [remove_invalid hv]
    exact h
  · rw [remove_eq (by omega) (by omega)]
    exact invP_reindex
      (h.1.1.sublist (List.Sublist.map Item.hash (List.eraseIdx_sublist _ _)))

theorem invP_append {a : App} (h : InvP a) (s hsh : String)
    (hno : ∀ j (hj : j < a.items.length), a.items[j].hash ≠ hsh) :
    InvP ⟨a.items ++ [⟨s, hsh⟩], mapInsert a.index hsh a.items.length⟩ := by
  have hnotmem : hsh ∉ a.items.map Item.hash := by
    intro hm
    obtain ⟨it, hit, hh⟩ := List.mem_map.mp hm
    obtain ⟨j, hj, hje⟩ := List.mem_iff_getElem.mp hit
    exact hno j hj (by rw [hje, hh])
  refine ⟨⟨?_, ?_⟩, ?_⟩
  · rw [List.map_append, List.nodup_append]
    refine ⟨h.1.1, by simp, ?_⟩
    intro x hx hx'
    simp only [List.map_cons, List.map_nil, List.mem_singleton] at hx'
    exact hnotmem (hx' ▸ hx)
  · intro j hj
    simp only [List.length_append, List.length_cons, List.length_nil] at hj
    by_cases hjl : j < a.items.length
    · have hgj : (a.items ++ [(⟨s, hsh⟩ : Item)])[j] = a.items[j] :=
        List.getElem_append_left hjl
      rw [hgj, mapLookup_insert, if_neg (fun he => hno j hjl (by rw [he]))]
      exact h.1.2 j hjl
    · have hje : j = a.items.length := by omega
      have hgj : (a.items ++ [(⟨s, hsh⟩ : Item)])[j] = (⟨s, hsh⟩ : Item) :=
        List.getElem_concat_length _ _ _ hje _
      rw [hgj, mapLookup_insert, if_pos rfl, hje]
  · intro kv hkv
    rcases mem_mapInsert hkv with h' | h'
    · rw [h']
      simp only
      rw [List.getElem?_concat_length]
      rfl
    · have hold := h.2 kv h'
      have hlt : kv.2 < a.items.length := by
        by_contra hge
        rw [List.getElem?_eq_none (by omega)] at hold
        simp at hold
      rw [List.getElem?_append_left hlt]
      exact hold

theorem invP_add {app : App} (h : InvP app) (H : String → String) (s : String) :
    InvP (app.Add H s) := by
  rw [App.Add]
  cases hm : mapLookup app.index (hashFn H s) with
  | none =>
      simp only
      refine invP_append h s (hashFn H s) ?_
      intro j hj he
      rw [← he] at hm
      rw [h.1.2 j hj] at hm
      exact Option.noConfusion hm
  | some idx =>
      simp only
      have hmem := mapLookup_mem hm
      have hold := h.2 _ hmem
      simp only at hold
      have hlt : idx < app.items.length := by
        by_contra hge
        rw [List.getElem?_eq_none (by omega)] at hold
        simp at hold
      rw [List.getElem?_eq_getElem hlt] at hold
      have hhash : app.items[idx].hash = hashFn H s := by
        simpa using hold
      by_cases hlast : idx + 1 = app.items.length
      · rw [if_pos hlast]
        exact h
      · rw [if_neg hlast]
        have htn : ((idx : Int)).toNat = idx := by omega
        rw [remove_eq (by omega) (by exact_mod_cast hlt), htn]
        have hndE : ((app.items.eraseIdx idx).map Item.hash).Nodup :=
          h.1.1.sublist (List.Sublist.map Item.hash (List.eraseIdx_sublist _ _))
        refine invP_append (invP_reindex hndE) s (hashFn H s) ?_
        intro j hj he
        simp only at hj he
        -- decompose the items around position idx
        have hsplit : app.items.map Item.hash =
            (app.items.take idx).map Item.hash ++
              hashFn H s :: (app.items.drop (idx + 1)).map Item.hash := by
          conv_lhs => rw [← List.take_append_drop idx app.items]
          rw [List.map_append, List.drop_eq_getElem_cons hlt, List.map_cons, hhash]
        have hnd := h.1.1
        rw [hsplit, List.nodup_append] at hnd
        have hnotin : hashFn H s ∉ (app.items.eraseIdx idx).map Item.hash := by
          rw [List.eraseIdx_eq_take_drop_succ, List.map_append]
          intro hmem'
          rcases List.mem_append.mp hmem' with hmem' | hmem'
          · exact hnd.2.2 hmem' (List.mem_cons_self _ _)
          · rw [List.nodup_cons] at hnd
            exact hnd.2.1.1 hmem'
        exact hnotin (he ▸ List.mem_map_of_mem Item.hash
          (List.getElem_mem hj))

theorem invP_empty : InvP emptyApp := by decide

theorem invP_clear (app : App) : InvP app.Clear := invP_empty

theorem invP_applyOp {app : App} (h : InvP app) (H : String → String)
    (op : StoreOp) : InvP (applyOp H app op) := by
  cases op with
  | add s => exact invP_add h H s
  | remove i => exact invP_remove h i
  | clear => exact invP_clear app
  | reindex => exact invP_reindex h.1.1

theorem invP_applyOps {app : App} (h : InvP app) (H : String → String)
    (ops : List StoreOp) : InvP (applyOps H ops app) := by
  induction ops generalizing app with
  | nil => exact h
  | cons op rest ih => exact ih (invP_applyOp h H op)

theorem resolveIdx_nonneg {u n : Int} (h : 0 ≤ u) :
    resolveIdx u n = if u < n then some (n - u - 1) else none := by
  simp only [resolveIdx]
  rw [if_neg (by omega : ¬u < 0)]
  split_ifs with h1 h2 h2 <;> first | rfl | omega

theorem resolveIdx_neg {u n : Int} (h : u < 0) :
    resolveIdx u n = if -n ≤ u then some (-u - 1) else none := by
  simp only [resolveIdx]
  rw [if_pos h]
  split_ifs with h1 h2 h2 <;>
    first
    | rfl
    | omega
    | (simp only [Option.some.injEq]; omega)

/-- C2: `resolveIdx` computes `n - u - 1` for `u ≥ 0` and `(-u) - 1` for
`u < 0`, errs exactly when the computed position is outside `[0, n)`, and in
particular maps `0` to `n - 1` and `-1` to `0` whenever `n > 0`. -/
theorem C2_resolve_formula (u n : Int) :
    (0 ≤ u →
      resolveIdx u n =
        if 0 ≤ n - u - 1 ∧ n - u - 1 < n then some (n - u - 1) else none) ∧
    (u < 0 →
      resolveIdx u n =
        if 0 ≤ -u - 1 ∧ -u - 1 < n then some (-u - 1) else none) ∧
    (0 < n → resolveIdx 0 n = some (n - 1) ∧ resolveIdx (-1) n = some 0) := by
  refine ⟨?_, ?_, ?_⟩
  · intro h
    rw [resolveIdx_nonneg h]
    split_ifs <;> first | rfl | omega
  · intro h
    rw [resolveIdx_neg h]
    split_ifs <;> first | rfl | omega
  · intro h
    constructor
    · rw [resolveIdx_nonneg le_rfl, if_pos h]
      congr 1
      omega
    · rw [resolveIdx_neg (by omega), if_pos (by omega)]
      norm_num

theorem C2_resolve_formula_witness :
    (0 : Int) ≤ 2 ∧
      resolveIdx 2 7 =
        (if 0 ≤ 7 - 2 - 1 ∧ 7 - 2 - 1 < 7 then some (7 - 2 - 1) else none) ∧
    ((0 : Int) < 7 ∧ resolveIdx 0 7 = some (7 - 1) ∧ resolveIdx (-1) 7 = some 0) :=
  ⟨by decide, (C2_resolve_formula 2 7).1 (by decide),
    by decide, (C2_resolve_formula 2 7).2.2 (by decide)⟩

/-- C7 counterexample: with `n = 2` the distinct in-range relative indices
`0` and `-2` resolve to the same absolute position, so `resolveIdx` is not
injective over `[-n, n-1]` as the claim states. -/
theorem C7_counterexample :
    resolveIdx 0 2 = some 1 ∧ resolveIdx (-2) 2 = some 1 ∧
      ((0 : Int) ≠ -2) ∧ (-2 ≤ (0 : Int) ∧ (0 : Int) ≤ 2 - 1) ∧
      (-2 ≤ (-2 : Int) ∧ (-2 : Int) ≤ 2 - 1) := by
  decide

/-- C7 amended: for `n > 0` every relative index in `[-n, n-1]` resolves, the
image of that domain is exactly `[0, n)`, and `resolveIdx` is injective on the
non-negative and on the negative indices separately — but not jointly, since
`0` and `-n` collide. -/
theorem C7_resolve_injective_on_halves (n : Int) (hn : 0 < n) :
    (∀ i : Int, -n ≤ i → i ≤ n - 1 →
      ∃ p, resolveIdx i n = some p ∧ 0 ≤ p ∧ p < n) ∧
    (∀ p : Int, 0 ≤ p → p < n →
      ∃ i, -n ≤ i ∧ i ≤ n - 1 ∧ resolveIdx i n = some p) ∧
    (∀ i j : Int, 0 ≤ i → i ≤ n - 1 → 0 ≤ j → j ≤ n - 1 →
      resolveIdx i n = resolveIdx j n → i = j) ∧
    (∀ i j : Int, -n ≤ i → i < 0 → -n ≤ j → j < 0 →
      resolveIdx i n = resolveIdx j n → i = j) ∧
    resolveIdx 0 n = resolveIdx (-n) n := by
  refine ⟨?_, ?_, ?_, ?_, ?_⟩
  · intro i h1 h2
    by_cases hi : i < 0
    · exact ⟨-i - 1, by rw [resolveIdx_neg hi, if_pos h1], by omega, by omega⟩
    · exact ⟨n - i - 1, by rw [resolveIdx_nonneg (by omega), if_pos (by omega)],
        by omega, by omega⟩
  · intro p h1 h2
    exact ⟨n - p - 1, by omega, by omega,
      by rw [resolveIdx_nonneg (by omega), if_pos (by omega)]; congr 1; omega⟩
  · intro i j h1 h2 h3 h4 he
    rw [resolveIdx_nonneg h1, if_pos (by omega), resolveIdx_nonneg h3,
      if_pos (by omega)] at he
    simp only [Option.some.injEq] at he
    omega
  · intro i j h1 h2 h3 h4 he
    rw [resolveIdx_neg h2, if_pos h1, resolveIdx_neg h4, if_pos h3] at he
    simp only [Option.some.injEq] at he
    omega
  · rw [resolveIdx_nonneg le_rfl, if_pos hn, resolveIdx_neg (by omega),
      if_pos le_rfl]
    congr 1
    omega

theorem C7_resolve_injective_on_halves_witness :
    (0 : Int) < 3 ∧ resolveIdx 0 3 = resolveIdx (-3) 3 :=
  ⟨by decide, (C7_resolve_injective_on_halves 3 (by decide)).2.2.2.2⟩

/-- C1 counterexample: a freshly reindexed store whose (externally loaded)
entries share a content hash violates the dedup invariant with no operation
applied at all, so the claim fails for arbitrary freshly reindexed stores. -/
theorem C1_counterexample :
    ¬ DedupInv (applyOps (fun s => s) []
        (App.Reindex ⟨[⟨"a", "h1"⟩, ⟨"b", "h1"⟩], []⟩)) := by
  decide

/-- C1 amended: starting from the empty store — or from a freshly reindexed
store whose entries carry pairwise distinct content hashes — every sequence
of Add/Remove/Clear/Reindex operations maintains the dedup invariant: no two
entries share a hash and the index maps every entry's hash to its current
position. -/
theorem C1_store_invariant (H : String → String) (ops : List StoreOp) :
    DedupInv (applyOps H ops emptyApp) ∧
    ∀ (items : List Item) (index₀ : IndexMap), (items.map Item.hash).Nodup →
      DedupInv (applyOps H ops (App.Reindex ⟨items, index₀⟩)) := by
  constructor
  · exact (invP_applyOps invP_empty H ops).1
  · intro items index₀ hnd
    exact (invP_applyOps (invP_reindex hnd) H ops).1

theorem C1_store_invariant_witness :
    (([⟨"b", "hb"⟩] : List Item).map Item.hash).Nodup ∧
      DedupInv (applyOps (fun s => s) [StoreOp.add "a", StoreOp.remove 0]
        (App.Reindex ⟨[⟨"b", "hb"⟩], []⟩)) :=
  ⟨by decide,
    (C1_store_invariant (fun s => s) [StoreOp.add "a", StoreOp.remove 0]).2
      [⟨"b", "hb"⟩] [] (by decide)⟩

/-- C5 counterexample: `Add " x "` stores the untrimmed text `" x "` as the
entry's data (only the hash is computed from the trimmed text), so the stored
data does not equal its own whitespace-trimmed form. -/
theorem C5_counterexample :
    ((emptyApp.Add (fun s => s) " x ").items.map Item.data = [" x "]) ∧
      goTrimSpace " x " ≠ " x " := by
  decide

/-- C5 amended: `Add(text)` either no-ops (the hash is already newest) or
appends an entry holding the ORIGINAL text unmodified; the content hash is
the digest of the trimmed text. -/
theorem C5_add_stores_raw (H : String → String) (app : App) (t : String) :
    hashFn H t = H (goTrimSpace t) ∧
    (app.Add H t = app ∨
      ∃ pre, (app.Add H t).items = pre ++ [⟨t, hashFn H t⟩]) := by
  refine ⟨rfl, ?_⟩
  simp only [App.Add]
  cases hm : mapLookup app.index (hashFn H t) with
  | some idx =>
      dsimp only
      by_cases hlast : idx + 1 = app.items.length
      · rw [if_pos hlast]
        exact Or.inl rfl
      · rw [if_neg hlast]
        exact Or.inr ⟨(app.Remove (idx : Int)).items, rfl⟩
  | none => exact Or.inr ⟨app.items, rfl⟩

/-- C9 counterexample: `Remove 5` on a two-entry store returns successfully
with the store unchanged — no NotFound is signalled — while the spec-side
`RemoveSpec` demands an error there. -/
theorem C9_counterexample :
    (⟨[⟨"a", "ha"⟩, ⟨"b", "hb"⟩], [("ha", 0), ("hb", 1)]⟩ : App).Remove 5 =
        ⟨[⟨"a", "ha"⟩, ⟨"b", "hb"⟩], [("ha", 0), ("hb", 1)]⟩ ∧
      RemoveSpec ⟨[⟨"a", "ha"⟩, ⟨"b", "hb"⟩], [("ha", 0), ("hb", 1)]⟩ 5 =
        .error () :=
  ⟨rfl, rfl⟩

/-- C9 amended: for any absolute position outside `[0, length)`, `Remove`
silently returns with the store unchanged (no error is signalled to the
caller), diverging from the spec's NotFound requirement (`RemoveSpec`). -/
theorem C9_remove_oob_silent (app : App) (p : Int)
    (h : p < 0 ∨ (app.items.length : Int) ≤ p) :
    app.Remove p = app ∧ RemoveSpec app p = .error () := by
  refine ⟨remove_invalid h, ?_⟩
  rw [RemoveSpec, if_pos h]

theorem C9_remove_oob_silent_witness :
    (((-1 : Int) < 0 ∨ (((⟨[⟨"c", "hc"⟩], [("hc", 0)]⟩ : App).items.length : Int) ≤ -1)) ∧
      ((⟨[⟨"c", "hc"⟩], [("hc", 0)]⟩ : App).Remove (-1) = ⟨[⟨"c", "hc"⟩], [("hc", 0)]⟩ ∧
        RemoveSpec ⟨[⟨"c", "hc"⟩], [("hc", 0)]⟩ (-1) = .error ())) :=
  ⟨by decide, C9_remove_oob_silent ⟨[⟨"c", "hc"⟩], [("hc", 0)]⟩ (-1) (by decide)⟩

/-- C8 counterexample: the bounded list form on a nonempty store panics
("Not implemented yet") — the modelled Go `panic`, i.e. a crash — instead of
returning an orderly unsupported-operation error. -/
theorem C8_counterexample :
    handle (fun s => s) { op := .list, listArgs := (5, 10) }
        ⟨[⟨"a", "ha"⟩], [("ha", 0)]⟩ =
      ⟨⟨[⟨"a", "ha"⟩], [("ha", 0)]⟩, [], .panicked "Not implemented yet"⟩ := by
  decide

/-- C8 amended: a bounded list request (bounds not both zero) on a nonempty
history panics with message "Not implemented yet" (a crash, not an error
return), leaving the in-memory history unchanged at that point. -/
theorem C8_bounded_list_panics (H : String → String) (app : App) (s e : Int)
    (hne : app.items ≠ []) (hb : ¬(s = 0 ∧ e = 0)) :
    handle H { op := .list, listArgs := (s, e) } app =
      ⟨app, [], .panicked "Not implemented yet"⟩ := by
  simp only [handle]
  rw [if_neg (by simpa [List.length_eq_zero] using hne), if_neg hb]

theorem C8_bounded_list_panics_witness :
    ((⟨[⟨"d", "hd"⟩], [("hd", 0)]⟩ : App).items ≠ []) ∧
      (¬((5 : Int) = 0 ∧ (10 : Int) = 0)) ∧
      handle (fun s => s) { op := .list, listArgs := (5, 10) }
          ⟨[⟨"d", "hd"⟩], [("hd", 0)]⟩ =
        ⟨⟨[⟨"d", "hd"⟩], [("hd", 0)]⟩, [], .panicked "Not implemented yet"⟩ :=
  ⟨by decide, by decide,
    C8_bounded_list_panics (fun s => s) ⟨[⟨"d", "hd"⟩], [("hd", 0)]⟩ 5 10
      (by decide) (by decide)⟩

theorem add_lookup_last (H : String → String) (app : App) (s : String) :
    mapLookup (app.Add H s).index (hashFn H s) =
        some ((app.Add H s).items.length - 1) ∧
      (app.Add H s).items.length ≠ 0 := by
  simp only [App.Add]
  cases hm : mapLookup app.index (hashFn H s) with
  | some idx =>
      dsimp only
      by_cases hlast : idx + 1 = app.items.length
      · rw [if_pos hlast]
        refine ⟨?_, by omega⟩
        rw [hm]
        congr 1
        omega
      · rw [if_neg hlast]
        refine ⟨?_, by simp⟩
        rw [mapLookup_insert, if_pos rfl]
        congr 1
        simp
  | none =>
      dsimp only
      refine ⟨?_, by simp⟩
      rw [mapLookup_insert, if_pos rfl]
      congr 1
      simp

theorem addT_idempotent (H : String → String) (app : App) (s : String) :
    (app.Add H s).Add H s = app.Add H s := by
  obtain ⟨hl, hn⟩ := add_lookup_last H app s
  conv_lhs => rw [App.Add]
  rw [hl]
  dsimp only
  rw [if_pos (by omega)]

theorem add_existing (H : String → String) (app : App) (s : String)
    (hInv : InvP app) (hm : (mapLookup app.index (hashFn H s)).isSome) :
    (app.Add H s).items.length = app.items.length ∧
      ((app.Add H s).items.getLast?).map Item.hash = some (hashFn H s) := by
  obtain ⟨idx, hm'⟩ := Option.isSome_iff_exists.mp hm
  have hmem := mapLookup_mem hm'
  have hold := hInv.2 _ hmem
  simp only at hold
  have hlt : idx < app.items.length := by
    by_contra hge
    rw [List.getElem?_eq_none (by omega)] at hold
    simp at hold
  rw [List.getElem?_eq_getElem hlt] at hold
  have hhash : app.items[idx].hash = hashFn H s := by simpa using hold
  simp only [App.Add]
  rw [hm']
  dsimp only
  by_cases hlast : idx + 1 = app.items.length
  · rw [if_pos hlast]
    refine ⟨rfl, ?_⟩
    rw [List.getLast?_eq_getElem?]
    have hix : app.items.length - 1 = idx := by omega
    rw [hix, List.getElem?_eq_getElem hlt]
    simp [hhash]
  · rw [if_neg hlast]
    have htn : ((idx : Int)).toNat = idx := by omega
    have hrm : (app.Remove (idx : Int)).items = app.items.eraseIdx idx := by
      rw [remove_eq (by omega) (by exact_mod_cast hlt), htn]
    constructor
    · rw [List.length_append, hrm, List.length_eraseIdx, if_pos hlt]
      simp
      omega
    · rw [List.getLast?_concat]
      rfl

theorem add_scenario (H : String → String) (hxy : H "x" ≠ H "y") :
    (applyOps H [.add "x", .add "y", .add "x"] emptyApp).items.map Item.data =
      ["y", "x"] := by
  have hyx : ¬ H "y" = H "x" := fun h => hxy h.symm
  have hx : hashFn H "x" = H "x" := by
    have h : goTrimSpace "x" = "x" := by decide
    rw [hashFn, h]
  have hy : hashFn H "y" = H "y" := by
    have h : goTrimSpace "y" = "y" := by decide
    rw [hashFn, h]
  have e1 : emptyApp.Add H "x" = ⟨[⟨"x", H "x"⟩], [(H "x", 0)]⟩ := by
    simp only [App.Add, hx, emptyApp]
    rfl
  have e2 : (⟨[⟨"x", H "x"⟩], [(H "x", 0)]⟩ : App).Add H "y" =
      ⟨[⟨"x", H "x"⟩, ⟨"y", H "y"⟩], [(H "x", 0), (H "y", 1)]⟩ := by
    simp only [App.Add, hy]
    rw [show mapLookup [(H "x", 0)] (H "y") = none by simp [mapLookup, hxy]]
    simp [mapInsert, hxy]
  have e3 : (⟨[⟨"x", H "x"⟩, ⟨"y", H "y"⟩], [(H "x", 0), (H "y", 1)]⟩ : App).Add
        H "x" = ⟨[⟨"y", H "y"⟩, ⟨"x", H "x"⟩], [(H "y", 0), (H "x", 1)]⟩ := by
    simp only [App.Add, hx]
    rw [show mapLookup [(H "x", 0), (H "y", 1)] (H "x") = some 0 by
      simp [mapLookup]]
    dsimp only
    rw [if_neg (by norm_num)]
    simp [App.Remove, ReindexMap, reindexAux, mapInsert, mapLookup, hyx]
  simp only [applyOps, List.foldl, applyOp]
  rw [e1, e2, e3]
  rfl

/-- C3: re-adding the same content is idempotent — a second `Add` of `s` is a
no-op; whenever the hash of `s` is already present, `Add s` keeps the history
length unchanged and leaves the entry with that hash at the newest (last)
position; and concretely Add "x", Add "y", Add "x" from empty yields the
two-entry history ["y", "x"] (oldest first). -/
theorem C3_add_promote (H : String → String) (app : App) (s : String)
    (hInv : InvP app) (hxy : H "x" ≠ H "y") :
    (app.Add H s).Add H s = app.Add H s ∧
    ((mapLookup app.index (hashFn H s)).isSome →
      (app.Add H s).items.length = app.items.length ∧
      ((app.Add H s).items.getLast?).map Item.hash = some (hashFn H s)) ∧
    (applyOps H [.add "x", .add "y", .add "x"] emptyApp).items.map Item.data =
      ["y", "x"] :=
  ⟨addT_idempotent H app s, fun hm => add_existing H app s hInv hm,
    add_scenario H hxy⟩

theorem C3_add_promote_witness :
    ((⟨[⟨"a", "a"⟩], [("a", 0)]⟩ : App).Add (fun t => t) "a").Add (fun t => t)
        "a" = (⟨[⟨"a", "a"⟩], [("a", 0)]⟩ : App).Add (fun t => t) "a" ∧
      (applyOps (fun t => t) [.add "x", .add "y", .add "x"]
          emptyApp).items.map Item.data = ["y", "x"] :=
  ⟨(C3_add_promote (fun t => t) ⟨[⟨"a", "a"⟩], [("a", 0)]⟩ "a" (by decide)
      (by decide)).1,
    (C3_add_promote (fun t => t) ⟨[⟨"a", "a"⟩], [("a", 0)]⟩ "a" (by decide)
      (by decide)).2.2⟩

theorem insertAsc_perm (x : Int) (l : List Int) :
    (insertAsc x l).Perm (x :: l) := by
  induction l with
  | nil => simp [insertAsc]
  | cons y ys ih =>
      rw [insertAsc]
      split_ifs
      · exact List.Perm.refl _
      · exact ((ih.cons y).trans (List.Perm.swap x y ys)).symm.symm

theorem sortAsc_perm (l : List Int) : (sortAsc l).Perm l := by
  induction l with
  | nil => simp [sortAsc]
  | cons x xs ih => exact (insertAsc_perm x (sortAsc xs)).trans (ih.cons x)

theorem insertAsc_sorted {l : List Int} (h : l.Pairwise (· ≤ ·)) (x : Int) :
    (insertAsc x l).Pairwise (· ≤ ·) := by
  induction l with
  | nil => simp [insertAsc]
  | cons y ys ih =>
      rw [insertAsc]
      rw [List.pairwise_cons] at h
      split_ifs with hxy
      · refine List.Pairwise.cons ?_ (List.Pairwise.cons h.1 h.2)
        intro b hb
        rcases List.mem_cons.mp hb with hb | hb
        · omega
        · exact le_trans hxy (h.1 b hb)
      · refine List.Pairwise.cons ?_ (ih h.2)
        intro b hb
        rcases List.mem_cons.mp ((insertAsc_perm x ys).mem_iff.mp hb) with hb | hb
        · omega
        · exact h.1 b hb

theorem sortAsc_sorted (l : List Int) : (sortAsc l).Pairwise (· ≤ ·) := by
  induction l with
  | nil => simp [sortAsc]
  | cons x xs ih => exact insertAsc_sorted ih x

theorem sortDescInt_perm (l : List Int) : (sortDescInt l).Perm l :=
  (List.reverse_perm (sortAsc l)).trans (sortAsc_perm l)

theorem sortDescInt_sorted (l : List Int) :
    (sortDescInt l).Pairwise (· ≥ ·) := by
  rw [sortDescInt, List.pairwise_reverse]
  exact (sortAsc_sorted l).imp (fun h => h)

theorem sortDescInt_strict {l : List Int} (h : l.Nodup) :
    (sortDescInt l).Pairwise (· > ·) := by
  have hnd : (sortDescInt l).Nodup := ((sortDescInt_perm l).nodup_iff).mpr h
  have := (sortDescInt_sorted l).and hnd
  exact this.imp (fun hab => lt_of_le_of_ne hab.1 (Ne.symm hab.2))

theorem resolveIdx_some_bounds {u n p : Int} (h : resolveIdx u n = some p) :
    0 ≤ p ∧ p < n := by
  simp only [resolveIdx] at h
  split_ifs at h <;>
    first
    | exact Option.noConfusion h
    | (have he := Option.some.inj h; omega)

theorem resolveAll_none_iff (l : List Int) (n : Int) :
    resolveAll l n = none ↔ ∃ u ∈ l, resolveIdx u n = none := by
  induction l with
  | nil => simp [resolveAll]
  | cons u us ih =>
      rw [resolveAll]
      cases hu : resolveIdx u n with
      | none => simp [hu]
      | some r =>
          simp only [Option.map_eq_none']
          rw [ih]
          constructor
          · rintro ⟨v, hv, hvn⟩
            exact ⟨v, List.mem_cons_of_mem _ hv, hvn⟩
          · rintro ⟨v, hv, hvn⟩
            rcases List.mem_cons.mp hv with hv | hv
            · rw [hv] at hvn
              rw [hvn] at hu
              exact Option.noConfusion hu
            · exact ⟨v, hv, hvn⟩

theorem resolveAll_some {l : List Int} {n : Int} {r : List Int}
    (h : resolveAll l n = some r) :
    r = l.map (fun u => (resolveIdx u n).getD 0) ∧
      ∀ u ∈ l, (resolveIdx u n).isSome := by
  induction l generalizing r with
  | nil =>
      simp only [resolveAll, Option.some.injEq] at h
      subst h
      simp
  | cons u us ih =>
      rw [resolveAll] at h
      cases hu : resolveIdx u n with
      | none => rw [hu] at h; exact Option.noConfusion h
      | some p =>
          rw [hu] at h
          cases hrest : resolveAll us n with
          | none => rw [hrest] at h; exact Option.noConfusion h
          | some rs =>
              rw [hrest] at h
              simp only [Option.map_some', Option.some.injEq] at h
              obtain ⟨h1, h2⟩ := ih hrest
              subst h
              refine ⟨?_, ?_⟩
              · simp [hu, h1]
              · intro v hv
                rcases List.mem_cons.mp hv with hv | hv
                · rw [hv, hu]; rfl
                · exact h2 v hv

theorem resolveAll_isSome {l : List Int} {n : Int}
    (h : ∀ u ∈ l, (resolveIdx u n).isSome) :
    resolveAll l n = some (l.map (fun u => (resolveIdx u n).getD 0)) := by
  induction l with
  | nil => simp [resolveAll]
  | cons u us ih =>
      rw [resolveAll]
      obtain ⟨p, hp⟩ := Option.isSome_iff_exists.mp (h u (List.mem_cons_self _ _))
      rw [hp, ih (fun v hv => h v (List.mem_cons_of_mem _ hv))]
      simp [hp]

theorem keepNotIn_of_lt {P : List Nat} {i : Nat} (h : ∀ q ∈ P, q < i)
    (xs : List Item) : keepNotIn P xs i = xs := by
  induction xs generalizing i with
  | nil => rfl
  | cons x xs ih =>
      rw [keepNotIn, if_neg (fun hm => Nat.lt_irrefl i (h i hm))]
      rw [ih (fun q hq => Nat.lt_trans (h q hq) (Nat.lt_succ_self i))]

theorem keepNotIn_congr {P P' : List Nat} (h : ∀ q, q ∈ P ↔ q ∈ P')
    (xs : List Item) (i : Nat) : keepNotIn P xs i = keepNotIn P' xs i := by
  induction xs generalizing i with
  | nil => rfl
  | cons x xs ih =>
      rw [keepNotIn, keepNotIn]
      by_cases hm : i ∈ P
      · rw [if_pos hm, if_pos ((h i).mp hm), ih]
      · rw [if_neg hm, if_neg (fun hm' => hm ((h i).mpr hm')), ih]

theorem keepNotIn_eraseIdx (xs : List Item) :
    ∀ (p i : Nat) (P : List Nat), (∀ q ∈ P, q < i + p) → p < xs.length →
      keepNotIn P (xs.eraseIdx p) i = keepNotIn ((i + p) :: P) xs i := by
  induction xs with
  | nil =>
      intro p i P _ hp
      simp at hp
  | cons x xs ih =>
      intro p i P hP hp
      cases p with
      | zero =>
          rw [List.eraseIdx_cons_zero, keepNotIn_of_lt (by simpa using hP)]
          rw [Nat.add_zero, keepNotIn, if_pos (List.mem_cons_self _ _)]
          rw [keepNotIn_of_lt]
          intro q hq
          rcases List.mem_cons.mp hq with hq | hq
          · omega
          · have := hP q hq
            omega
      | succ p =>
          have hp' : p < xs.length := by simpa using hp
          have hne : ¬i = i + p + 1 := by omega
          rw [List.eraseIdx_cons_succ, keepNotIn, keepNotIn]
          have hiff : i ∈ (i + (p + 1)) :: P ↔ i ∈ P := by
            constructor
            · intro hm
              rcases List.mem_cons.mp hm with hm | hm
              · omega
              · exact hm
            · exact fun hm => List.mem_cons_of_mem _ hm
          have harith : i + 1 + p = i + (p + 1) := by omega
          have hih := ih p (i + 1) P (fun q hq => by have := hP q hq; omega) hp'
          rw [harith] at hih
          by_cases hm : i ∈ P
      
          · rw [if_pos hm, if_pos (hiff.mpr hm), hih]
          · rw [if_neg hm, if_neg (fun hm' => hm (hiff.mp hm')), hih]

theorem foldl_eraseIdx_keepNotIn :
    ∀ (ps : List Nat) (xs : List Item), ps.Pairwise (· > ·) →
      (∀ q ∈ ps, q < xs.length) →
      ps.foldl (fun l p => l.eraseIdx p) xs = keepNotIn ps xs 0 := by
  intro ps
  induction ps with
  | nil =>
      intro xs _ _
      rw [List.foldl_nil, keepNotIn_of_lt (by simp)]
  | cons p ps ih =>
      intro xs hpair hbound
      rw [List.pairwise_cons] at hpair
      have hp : p < xs.length := hbound p (List.mem_cons_self _ _)
      rw [List.foldl_cons]
      rw [ih (xs.eraseIdx p) hpair.2 ?bounds]
      case bounds =>
        intro q hq
        rw [List.length_eraseIdx, if_pos hp]
        have h1 := hpair.1 q hq
        omega
      have := keepNotIn_eraseIdx xs p 0 ps
        (fun q hq => by have := hpair.1 q hq; omega) hp
      rw [this, Nat.zero_add]

theorem erase_erase_keepNotIn (xs : List Item) :
    ∀ (p i : Nat), (xs.eraseIdx p).eraseIdx p =
      keepNotIn [i + p, i + p + 1] xs i := by
  induction xs with
  | nil =>
      intro p i
      simp [List.eraseIdx, keepNotIn]
  | cons x xs ih =>
      intro p i
      cases p with
      | zero =>
          rw [List.eraseIdx_cons_zero, Nat.add_zero]
          cases xs with
          | nil => simp [List.eraseIdx, keepNotIn]
          | cons y ys =>
              rw [List.eraseIdx_cons_zero]
              rw [keepNotIn, if_pos (List.mem_cons_self _ _)]
              rw [keepNotIn, if_pos (by simp)]
              rw [keepNotIn_of_lt]
              intro q hq
              rcases List.mem_cons.mp hq with hq | hq
              · omega
              · simp only [List.mem_singleton] at hq
                omega
      | succ p =>
          rw [List.eraseIdx_cons_succ, List.eraseIdx_cons_succ]
          rw [keepNotIn, if_neg ?notmem]
          case notmem =>
            intro hm
            rcases List.mem_cons.mp hm with hm | hm
            · omega
            · simp only [List.mem_singleton] at hm
              omega
          have harith1 : i + 1 + p = i + (p + 1) := by omega
          have hke := ih p (i + 1)
          rw [harith1] at hke
          rw [hke]

theorem foldl_remove_items :
    ∀ (ps : List Int) (app : App),
      (∀ q ∈ ps, 0 ≤ q ∧ q < (app.items.length : Int)) →
      ps.Pairwise (· > ·) →
      (ps.foldl App.Remove app).items =
        (ps.map Int.toNat).foldl (fun l p => l.eraseIdx p) app.items := by
  intro ps
  induction ps with
  | nil => intro app _ _; rfl
  | cons p ps ih =>
      intro app hbound hpair
      rw [List.pairwise_cons] at hpair
      obtain ⟨hp0, hpl⟩ := hbound p (List.mem_cons_self _ _)
      have hstep : (app.Remove p).items = app.items.eraseIdx p.toNat := by
        rw [remove_eq hp0 hpl]
      rw [List.foldl_cons, List.map_cons, List.foldl_cons, ← hstep]
      refine ih (app.Remove p) ?_ hpair.2
      intro q hq
      obtain ⟨hq0, hql⟩ := hbound q (List.mem_cons_of_mem _ hq)
      have hqp := hpair.1 q hq
      refine ⟨hq0, ?_⟩
      rw [hstep, List.length_eraseIdx, if_pos (by omega)]
      have h1 : 1 ≤ app.items.length := by omega
      rw [Nat.cast_sub h1]
      push_cast
      omega

theorem sortAsc_eq_of_perm {l₁ l₂ : List Int} (h : l₁.Perm l₂) :
    sortAsc l₁ = sortAsc l₂ :=
  List.eq_of_perm_of_sorted
    ((sortAsc_perm l₁).trans (h.trans (sortAsc_perm l₂).symm))
    (sortAsc_sorted l₁) (sortAsc_sorted l₂)

/-- C4: a Delete request resolves every requested relative index against the
current length before touching the store; any failure aborts the whole
operation with the store exactly as it was.  When all indices resolve and the
resolved absolute positions are pairwise distinct, the entries removed are
exactly the entries at those positions (`keepNotIn` keeps the rest in order),
and the outcome is invariant under reordering of the request list. -/
theorem C4_delete_atomic (H : String → String) (app : App) (idxs : List Int) :
    (resolveAll (if idxs.length = 0 then [0] else idxs)
        (app.items.length : Int) = none →
      handle H { op := .delete, deleteIndices := idxs } app =
        ⟨app, [], .errOutOfBounds⟩) ∧
    (∀ r, resolveAll (if idxs.length = 0 then [0] else idxs)
        (app.items.length : Int) = some r → r.Nodup →
      (handle H { op := .delete, deleteIndices := idxs } app).app.items =
        keepNotIn (r.map Int.toNat) app.items 0) ∧
    (∀ idxs' : List Int, idxs.Perm idxs' →
      handle H { op := .delete, deleteIndices := idxs } app =
        handle H { op := .delete, deleteIndices := idxs' } app) := by
  refine ⟨?_, ?_, ?_⟩
  · intro h
    simp only [handle]
    rw [h]
  · intro r hr hnd
    simp only [handle]
    rw [hr]
    dsimp only
    have hballr : ∀ x ∈ r, 0 ≤ x ∧ x < (app.items.length : Int) := by
      intro x hx
      rw [(resolveAll_some hr).1] at hx
      obtain ⟨u, hu, hux⟩ := List.mem_map.mp hx
      obtain ⟨pp, hpp⟩ :=
        Option.isSome_iff_exists.mp ((resolveAll_some hr).2 u hu)
      rw [← hux, hpp]
      exact resolveIdx_some_bounds hpp
    have hball : ∀ x ∈ sortDescInt r, 0 ≤ x ∧ x < (app.items.length : Int) :=
      fun x hx => hballr x ((sortDescInt_perm r).mem_iff.mp hx)
    rw [foldl_remove_items (sortDescInt r) app hball (sortDescInt_strict hnd)]
    rw [foldl_eraseIdx_keepNotIn ((sortDescInt r).map Int.toNat) app.items
      ?strict ?bound]
    case strict =>
      rw [List.pairwise_map]
      refine (sortDescInt_strict hnd).imp_of_mem ?_
      intro a b ha hb hab
      have hb' := hball b hb
      omega
    case bound =>
      intro q hq
      obtain ⟨x, hx, hxq⟩ := List.mem_map.mp hq
      have := hball x hx
      omega
    exact keepNotIn_congr
      (fun q => List.Perm.mem_iff ((sortDescInt_perm r).map Int.toNat))
      app.items 0
  · intro idxs' hperm
    simp only [handle]
    by_cases hz : idxs.length = 0
    · have h1 : idxs = [] := List.length_eq_zero.mp hz
      have h2 : idxs' = [] := List.length_eq_zero.mp
        (hperm.length_eq ▸ hz)
      rw [h1, h2]
    · have hz' : ¬idxs'.length = 0 := by rw [← hperm.length_eq]; exact hz
      rw [if_neg hz, if_neg hz']
      cases h1 : resolveAll idxs (app.items.length : Int) with
      | none =>
          have h2 : resolveAll idxs' (app.items.length : Int) = none := by
            rw [resolveAll_none_iff]
            obtain ⟨u, hu, hun⟩ := (resolveAll_none_iff _ _).mp h1
            exact ⟨u, hperm.mem_iff.mp hu, hun⟩
          rw [h2]
      | some r =>
          have hsome : ∀ u ∈ idxs',
              (resolveIdx u (app.items.length : Int)).isSome :=
            fun u hu => (resolveAll_some h1).2 u (hperm.mem_iff.mpr hu)
          rw [resolveAll_isSome hsome]
          dsimp only
          have hrperm : r.Perm (idxs'.map
              (fun u => (resolveIdx u (app.items.length : Int)).getD 0)) := by
            rw [(resolveAll_some h1).1]
            exact hperm.map _
          rw [show sortDescInt r = sortDescInt (idxs'.map
              (fun u => (resolveIdx u (app.items.length : Int)).getD 0)) by
            rw [sortDescInt, sortDescInt, sortAsc_eq_of_perm hrperm]]

/-- C10: when a Delete request's two relative indices resolve to the same
middle position `p` (with `0 < p < n - 2`), the executor removes the entry at
`p` and also the never-requested entry originally at `p + 1`: removing
position `p` twice on the shrinking list deletes old positions `p` and
`p + 1`, leaving `n - 2` entries. -/
theorem C10_duplicate_delete (H : String → String) (app : App)
    (i1 i2 p : Int) (hn : 4 ≤ app.items.length)
    (h1 : resolveIdx i1 (app.items.length : Int) = some p)
    (h2 : resolveIdx i2 (app.items.length : Int) = some p)
    (hp0 : 0 < p) (hpn : p < (app.items.length : Int) - 2) :
    (handle H { op := .delete, deleteIndices := [i1, i2] } app).app.items =
      keepNotIn [p.toNat, p.toNat + 1] app.items 0 ∧
    (handle H { op := .delete, deleteIndices := [i1, i2] } app).app.items.length
      = app.items.length - 2 := by
  have hra : resolveAll [i1, i2] (app.items.length : Int) = some [p, p] := by
    rw [resolveAll, h1, resolveAll, h2, resolveAll]
    rfl
  have hsort : sortDescInt [p, p] = [p, p] := by
    simp [sortDescInt, sortAsc, insertAsc]
  have hb := resolveIdx_some_bounds h1
  have hres : handle H { op := .delete, deleteIndices := [i1, i2] } app =
      ⟨(app.Remove p).Remove p, [], .ok⟩ := by
    simp only [handle]
    rw [show (if ([i1, i2] : List Int).length = 0 then [0] else [i1, i2]) =
      [i1, i2] by simp]
    rw [hra]
    dsimp only
    rw [hsort]
    rfl
  have e1 : (app.Remove p).items = app.items.eraseIdx p.toNat := by
    rw [remove_eq hb.1 hb.2]
  have hlen1 : (app.Remove p).items.length = app.items.length - 1 := by
    rw [e1, List.length_eraseIdx, if_pos (by omega)]
  have hb2 : p < ((app.Remove p).items.length : Int) := by
    rw [hlen1, Nat.cast_sub (by omega)]
    push_cast
    omega
  have e2 : ((app.Remove p).Remove p).items =
      (app.items.eraseIdx p.toNat).eraseIdx p.toNat := by
    rw [remove_eq hb.1 hb2, e1]
  rw [hres]
  dsimp only
  constructor
  · rw [e2]
    have := erase_erase_keepNotIn app.items p.toNat 0
    rw [Nat.zero_add] at this
    exact this
  · rw [e2]
    have hpt : p.toNat < app.items.length := by omega
    have hL1 : (app.items.eraseIdx p.toNat).length = app.items.length - 1 := by
      rw [List.length_eraseIdx, if_pos hpt]
    have hpt2 : p.toNat < (app.items.eraseIdx p.toNat).length := by
      rw [hL1]
      omega
    rw [List.length_eraseIdx, if_pos hpt2, hL1]
    omega

/-- A six-entry store used to exercise the Delete executor. -/
def sixApp : App :=
  ⟨[⟨"a", "a"⟩, ⟨"b", "b"⟩, ⟨"c", "c"⟩, ⟨"d", "d"⟩, ⟨"e", "e"⟩, ⟨"f", "f"⟩],
    [("a", 0), ("b", 1), ("c", 2), ("d", 3), ("e", 4), ("f", 5)]⟩

theorem C4_delete_atomic_witness :
    (handle (fun s => s) { op := .delete, deleteIndices := [10] } sixApp =
      ⟨sixApp, [], .errOutOfBounds⟩) ∧
    ((handle (fun s => s) { op := .delete, deleteIndices := [2, 0, 3] }
        sixApp).app.items =
      keepNotIn (([3, 5, 2] : List Int).map Int.toNat) sixApp.items 0) ∧
    (handle (fun s => s) { op := .delete, deleteIndices := [2, 0, 3] } sixApp =
      handle (fun s => s) { op := .delete, deleteIndices := [0, 3, 2] } sixApp) :=
  ⟨(C4_delete_atomic (fun s => s) sixApp [10]).1 (by decide),
    (C4_delete_atomic (fun s => s) sixApp [2, 0, 3]).2.1 [3, 5, 2] (by decide)
      (by decide),
    (C4_delete_atomic (fun s => s) sixApp [2, 0, 3]).2.2 [0, 3, 2] (by decide)⟩

/-- A five-entry store used to exercise the duplicate-index Delete. -/
def fiveApp : App :=
  ⟨[⟨"a", "a"⟩, ⟨"b", "b"⟩, ⟨"c", "c"⟩, ⟨"d", "d"⟩, ⟨"e", "e"⟩],
    [("a", 0), ("b", 1), ("c", 2), ("d", 3), ("e", 4)]⟩

theorem C10_duplicate_delete_witness :
    ((handle (fun s => s) { op := .delete, deleteIndices := [2, -3] }
        fiveApp).app.items =
      keepNotIn [(2 : Int).toNat, (2 : Int).toNat + 1] fiveApp.items 0) ∧
    (handle (fun s => s) { op := .delete, deleteIndices := [2, -3] }
        fiveApp).app.items.length = fiveApp.items.length - 2 :=
  C10_duplicate_delete (fun s => s) fiveApp 2 (-3) 2 (by decide) (by decide)
    (by decide) (by decide) (by decide)

/-- C6 counterexample: an unmatched piped content lookup under the paste flag
returns the Paste operation (set before the lookup), not Help. -/
theorem C6_counterexample :
    parse (fun s => s) ⟨[⟨"hello", "hello"⟩], [("hello", 0)]⟩
        { changedPaste := true } (some "zzz") =
      .ok { op := .paste } ∧ Op.paste ≠ Op.help := by
  constructor
  · rfl
  · decide

/-- C6 amended: with the paste flag selected, non-empty piped input, and no
entry matching the piped text's hash (in unescaped or raw form), `parse`
returns the PASTE operation with the explicitly given index and no error —
the unmatched lookup is silently abandoned and a normal index paste proceeds,
rather than resolving to Help. -/
theorem C6_unmatched_pipe_paste (H : String → String) (app : App)
    (fs : FlagSet) (stdinData : Option String)
    (hv : fs.changedVersion = false) (hda : fs.changedDeleteAll = false)
    (hd : fs.changedDelete = false) (hl : fs.changedList = false)
    (hp : fs.changedPaste = true)
    (hne : getPipeInput stdinData ≠ "")
    (hm1 : mapLookup app.index
      (hashFn H (goUnescape (getPipeInput stdinData))) = none)
    (hm2 : mapLookup app.index (hashFn H (getPipeInput stdinData)) = none) :
    parse H app fs stdinData = .ok { op := .paste, pasteIndex := fs.pasteVal } := by
  simp [parse, hv, hda, hd, hl, hp, hne, hm1, hm2]

theorem C6_unmatched_pipe_paste_witness :
    getPipeInput (some "nope") ≠ "" ∧
      parse (fun s => s) ⟨[⟨"hi", "hi"⟩], [("hi", 0)]⟩
          { changedPaste := true, pasteVal := 1 } (some "nope") =
        .ok { op := .paste, pasteIndex := 1 } :=
  ⟨by decide,
    C6_unmatched_pipe_paste (fun s => s) ⟨[⟨"hi", "hi"⟩], [("hi", 0)]⟩
      { changedPaste := true, pasteVal := 1 } (some "nope") rfl rfl rfl rfl rfl
      (by decide) (by decide) (by decide)⟩
